import Mathlib

/-!
Verification of the state-attestation subsystem of the machine emulator.

The development shallowly embeds the sources:
  * `src/src/back-merkle-tree.cpp` — the incremental (streaming) Merkle
    accumulator `back_merkle_tree`;
  * `src/src/emulator/i-state-access.h` — the CRTP state-access interface;
  * `src/src/clua-machine.cpp` — the Lua bindings of the verifier entry points.

Hashes are kept abstract: every definition is parameterised by the hash type
`Hash`, the pair hasher `H` (the source's `get_concat_hash`), the pristine word
hash `pw` (the digest of an all-zero word, computed outside the focal sources),
and the default hash value `d0` (the value-initialised `hash_type`, i.e. the
all-zero byte array that fills the freshly constructed `m_context` vector).
Theorems proved for arbitrary `H` hold for any concrete hasher.

C++ exceptions are modelled with `Except String`; an out-of-bounds vector
access (undefined behaviour in the source) is modelled as an error outcome, so
"never fails / all accesses in bounds" becomes "returns `.ok`".
-/

namespace MachineEmulator

section BackMerkle

variable {Hash : Type}

/-- Iterated doubling: `doubleIter H x n = H (… ) (… )` applied `n` times,
the hash of a complete subtree of height `n` whose every leaf is `x`. -/
def doubleIter (H : Hash → Hash → Hash) (x : Hash) : Nat → Hash
  | 0 => x
  | n + 1 => H (doubleIter H x n) (doubleIter H x n)

/-- Modelled from the spec: `pristine_merkle_tree::get_hash` (the class
`pristine_merkle_tree` is not under `src/`). Per spec §4.B the table is built
bottom-up from the pristine word hash `pw` at height `lw = log2_word_size`,
with `pristine[h+1] = H(pristine[h], pristine[h])`, and `get(height)` fails
with a bounds error when `height ∉ [log2_word_size, log2_root_size]`. -/
def pristine_get_hash (H : Hash → Hash → Hash) (pw : Hash) (lw lr hgt : Nat) :
    Except String Hash :=
  if lw ≤ hgt ∧ hgt ≤ lr then .ok (doubleIter H pw (hgt - lw)) else .error "log2_size is out of range"

/-- State of `cartesi::back_merkle_tree` (back-merkle-tree.cpp).  The source
stores `m_log2_word_size` only inside its embedded `m_pristine_hashes` table;
here it is kept as a plain field.  `m_max_leaves` is stored, as in the source
(`address_type{1} << (log2_root_size - log2_leaf_size)`). -/
structure back_merkle_tree (Hash : Type) where
  m_log2_root_size : Nat
  m_log2_leaf_size : Nat
  m_log2_word_size : Nat
  m_leaf_count : Nat
  m_max_leaves : Nat
  m_context : List Hash
deriving DecidableEq, Repr

/-- Derived depth, the source line `int depth = m_log2_root_size - m_log2_leaf_size;`. -/
def back_merkle_tree.depth (t : back_merkle_tree Hash) : Nat :=
  t.m_log2_root_size - t.m_log2_leaf_size

/-- Read of `m_context[i]`; an out-of-bounds index (UB in the source) is an
error outcome. -/
def ctxGet (ctx : List Hash) (i : Nat) : Except String Hash :=
  match ctx.get? i with
  | some x => .ok x
  | none => .error "context index out of bounds"

/-- The freshly constructed state: `m_leaf_count{0}`,
`m_max_leaves{address_type{1} << (log2_root_size - log2_leaf_size)}`,
`m_context(std::max(1, log2_root_size - log2_leaf_size + 1))` value-initialised
to the all-zero hash `d0`. -/
def back_merkle_tree.fresh (d0 : Hash) (r l w : Nat) : back_merkle_tree Hash :=
  { m_log2_root_size := r
    m_log2_leaf_size := l
    m_log2_word_size := w
    m_leaf_count := 0
    m_max_leaves := 2 ^ (r - l)
    m_context := List.replicate (max 1 (r - l + 1)) d0 }

/-- The constructor `back_merkle_tree::back_merkle_tree`, with its checks in
source order (`std::numeric_limits<address_type>::digits = 64` for the 64-bit
`address_type`).  The size parameters are C++ `int`s, hence `Int` here.  The
second string of the fifth check reproduces the source's message verbatim
(the source's message names `log2_word_size` twice; the compared values are
`log2_word_size > log2_leaf_size`). -/
def back_merkle_tree.construct (d0 : Hash) (log2_root_size log2_leaf_size log2_word_size : Int) :
    Except String (back_merkle_tree Hash) :=
  if log2_root_size < 0 then .error "log2_root_size is negative"
  else if log2_leaf_size < 0 then .error "log2_leaf_size is negative"
  else if log2_word_size < 0 then .error "log2_word_size is negative"
  else if log2_leaf_size > log2_root_size then .error "log2_leaf_size is greater than log2_root_size"
  else if log2_word_size > log2_leaf_size then .error "log2_word_size is greater than log2_word_size"
  else if 64 ≤ log2_root_size then .error "tree is too large for address type"
  else .ok (back_merkle_tree.fresh d0 log2_root_size.toNat log2_leaf_size.toNat log2_word_size.toNat)

/-- The loop of `back_merkle_tree::push_back`: `for (i = 0; i <= depth; ++i)`,
combining `right = H(m_context[i], right)` while bit `i` of `m_leaf_count` is
set, and storing `m_context[i] = right` then breaking at the first clear bit.
`fuel` counts the remaining iterations (`depth + 1 - i`). -/
def push_back_loop (H : Hash → Hash → Hash) (lc : Nat) :
    Nat → Nat → Hash → List Hash → Except String (List Hash)
  | 0, _, _, ctx => .ok ctx
  | fuel + 1, i, right, ctx =>
    if lc.testBit i then
      (ctxGet ctx i).bind fun left => push_back_loop H lc fuel (i + 1) (H left right) ctx
    else if i < ctx.length then .ok (ctx.set i right) else .error "context index out of bounds"

/-- Method `back_merkle_tree::push_back`: throws "too many leaves" when
`m_leaf_count >= m_max_leaves` (before touching any member), else runs the
carry loop and increments `m_leaf_count`. -/
def back_merkle_tree.push_back (H : Hash → Hash → Hash) (t : back_merkle_tree Hash)
    (leaf_hash : Hash) : Except String (back_merkle_tree Hash) :=
  if t.m_leaf_count ≥ t.m_max_leaves then .error "too many leaves"
  else
    (push_back_loop H t.m_leaf_count (t.depth + 1) 0 leaf_hash t.m_context).map fun ctx =>
      { t with m_context := ctx, m_leaf_count := t.m_leaf_count + 1 }

/-- The fold of `back_merkle_tree::get_root_hash`: `for (i = 0; i < depth; ++i)`,
with `root = H(m_context[i], root)` when bit `i` of `m_leaf_count` is set and
`root = H(root, pristine[m_log2_leaf_size + i])` otherwise. -/
def get_root_hash_loop (H : Hash → Hash → Hash) (pw : Hash) (lc lleaf lw lr : Nat)
    (ctx : List Hash) : Nat → Nat → Hash → Except String Hash
  | 0, _, root => .ok root
  | fuel + 1, i, root =>
    if lc.testBit i then
      (ctxGet ctx i).bind fun left => get_root_hash_loop H pw lc lleaf lw lr ctx fuel (i + 1) (H left root)
    else
      (pristine_get_hash H pw lw lr (lleaf + i)).bind fun right =>
        get_root_hash_loop H pw lc lleaf lw lr ctx fuel (i + 1) (H root right)

/-- Method `back_merkle_tree::get_root_hash`: when the tree is not full, fold a
pristine leaf hash up through `depth` levels; when full, return
`m_context[depth]`. -/
def back_merkle_tree.get_root_hash (H : Hash → Hash → Hash) (pw : Hash)
    (t : back_merkle_tree Hash) : Except String Hash :=
  if t.m_leaf_count < t.m_max_leaves then
    (pristine_get_hash H pw t.m_log2_word_size t.m_log2_root_size t.m_log2_leaf_size).bind
      fun root =>
        get_root_hash_loop H pw t.m_leaf_count t.m_log2_leaf_size t.m_log2_word_size
          t.m_log2_root_size t.m_context t.depth 0 root
  else ctxGet t.m_context t.depth

/-- Modelled from the spec: the proof object `merkle_tree_proof` (its header is
not under `src/`).  Per spec §3/§4.D it stores the parameters, target address
and hash, the root hash, and the sibling hashes ordered nearest-the-target
first. -/
structure merkle_tree_proof (Hash : Type) where
  log2_root_size : Nat
  log2_target_size : Nat
  target_address : Nat
  target_hash : Hash
  siblings : List Hash
  root_hash : Hash
deriving DecidableEq, Repr

/-- Modelled from the spec: the re-fold of `merkle_tree_proof::verify`.  At
each level the next bit of `target_address >> log2_target_size` selects whether
the sibling is the left (`H sib acc`) or the right (`H acc sib`) child. -/
def fold_siblings (H : Hash → Hash → Hash) : List Hash → Nat → Hash → Hash
  | [], _, acc => acc
  | s :: rest, addr, acc =>
    fold_siblings H rest (addr / 2) (if addr % 2 = 1 then H s acc else H acc s)

/-- Modelled from the spec: `merkle_tree_proof::verify` holds when the proof
has one sibling per level and re-folding the target hash through the siblings
reproduces the root hash (spec §4.D). -/
def merkle_tree_proof.verify (H : Hash → Hash → Hash) (p : merkle_tree_proof Hash) : Prop :=
  p.siblings.length = p.log2_root_size - p.log2_target_size ∧
    fold_siblings H p.siblings (p.target_address >>> p.log2_target_size) p.target_hash = p.root_hash

/-- The loop of `back_merkle_tree::get_next_leaf_proof`: the same fold as
`get_root_hash_loop`, additionally recording each level's sibling (the
recorded list grows nearest-the-target first, matching
`set_sibling_hash(·, m_log2_leaf_size + i)`). -/
def get_next_leaf_proof_loop (H : Hash → Hash → Hash) (pw : Hash) (lc lleaf lw lr : Nat)
    (ctx : List Hash) : Nat → Nat → Hash → List Hash → Except String (Hash × List Hash)
  | 0, _, hsh, sibs => .ok (hsh, sibs)
  | fuel + 1, i, hsh, sibs =>
    if lc.testBit i then
      (ctxGet ctx i).bind fun left =>
        get_next_leaf_proof_loop H pw lc lleaf lw lr ctx fuel (i + 1) (H left hsh) (sibs ++ [left])
    else
      (pristine_get_hash H pw lw lr (lleaf + i)).bind fun right =>
        get_next_leaf_proof_loop H pw lc lleaf lw lr ctx fuel (i + 1) (H hsh right) (sibs ++ [right])

/-- Method `back_merkle_tree::get_next_leaf_proof`: throws "tree is full" when
`m_leaf_count >= m_max_leaves`, else builds the proof for the next leaf
position with `target_address = m_leaf_count << m_log2_leaf_size` and target
hash the pristine leaf hash. -/
def back_merkle_tree.get_next_leaf_proof (H : Hash → Hash → Hash) (pw : Hash)
    (t : back_merkle_tree Hash) : Except String (merkle_tree_proof Hash) :=
  if t.m_leaf_count ≥ t.m_max_leaves then .error "tree is full"
  else
    (pristine_get_hash H pw t.m_log2_word_size t.m_log2_root_size t.m_log2_leaf_size).bind
      fun plh =>
        (get_next_leaf_proof_loop H pw t.m_leaf_count t.m_log2_leaf_size t.m_log2_word_size
              t.m_log2_root_size t.m_context t.depth 0 plh []).map
          fun rs =>
            { log2_root_size := t.m_log2_root_size
              log2_target_size := t.m_log2_leaf_size
              target_address := t.m_leaf_count <<< t.m_log2_leaf_size
              target_hash := plh
              siblings := rs.2
              root_hash := rs.1 }

/-- The state observed after a `push_back` call whose exception was caught:
on the "too many leaves" path the source throws before writing any member, so
the object is unchanged. -/
def back_merkle_tree.push_back_run (H : Hash → Hash → Hash) (t : back_merkle_tree Hash)
    (leaf_hash : Hash) : back_merkle_tree Hash :=
  match t.push_back H leaf_hash with
  | .ok t' => t'
  | .error _ => t

/-- Spec-side definition (for the refinement claims): the root of the
fully-specified complete binary Merkle tree of height `d` whose leaf `j` is
`f j`. -/
def merkle_root (H : Hash → Hash → Hash) (f : Nat → Hash) : Nat → Hash
  | 0 => f 0
  | d + 1 => H (merkle_root H f d) (merkle_root H (fun j => f (2 ^ d + j)) d)

/-- Leaf `j` of the spec tree: the `j`-th pushed leaf when `j < ls.length`,
the pristine leaf hash `p` beyond. -/
def leavesFun (ls : List Hash) (p : Hash) : Nat → Hash :=
  fun j => ls.getD j p

/-- Relation `Builds H d0 r l w ls t`: `t` is the state reached from a valid
construction with parameters `(r, l, w)` by successfully pushing the leaves of
`ls` in order. -/
inductive Builds (H : Hash → Hash → Hash) (d0 : Hash) (r l w : Nat) :
    List Hash → back_merkle_tree Hash → Prop
  | nil : w ≤ l → l ≤ r → r ≤ 63 → Builds H d0 r l w [] (back_merkle_tree.fresh d0 r l w)
  | snoc {ls : List Hash} {t t' : back_merkle_tree Hash} {x : Hash} :
      Builds H d0 r l w ls t → t.push_back H x = .ok t' → Builds H d0 r l w (ls ++ [x]) t'

/-- A call of the const method `get_next_leaf_proof` observed together with
the machine state after the call: the method is declared `const` and writes no
member, so the state after the call is the receiver unchanged. -/
def back_merkle_tree.get_next_leaf_proof_call (H : Hash → Hash → Hash) (pw : Hash)
    (t : back_merkle_tree Hash) :
    Except String (merkle_tree_proof Hash) × back_merkle_tree Hash :=
  (t.get_next_leaf_proof H pw, t)

/-- The full invariant of a tree reached by pushing the leaves of `ls` into a
fresh tree with valid parameters `(r, l, w)`: the fields hold their
construction-time values, `leaf_count` counts the pushed leaves and never
exceeds `max_leaves`, the context vector keeps its size, and — the spine
invariant — for every set bit `m` of `leaf_count`, `context[m]` is the
spec-tree hash of the aligned chunk of `2^m` pushed leaves ending at the
position obtained by clearing the bits of `leaf_count` below `m + 1`. -/
def tree_inv (H : Hash → Hash → Hash) (r l w : Nat) (ls : List Hash)
    (t : back_merkle_tree Hash) : Prop :=
  t.m_log2_root_size = r ∧ t.m_log2_leaf_size = l ∧ t.m_log2_word_size = w ∧
    t.m_leaf_count = ls.length ∧ t.m_max_leaves = 2 ^ (r - l) ∧
    t.m_context.length = (r - l) + 1 ∧ ls.length ≤ 2 ^ (r - l) ∧
    w ≤ l ∧ l ≤ r ∧ r ≤ 63 ∧
    ∀ (p : Hash) (m : Nat), (ls.length).testBit m = true →
      t.m_context.get? m =
        some (merkle_root H
          (fun j => leavesFun ls p (ls.length / 2 ^ (m + 1) * 2 ^ (m + 1) + j)) m)

end BackMerkle

/-! ### The CRTP state-access interface (src/src/emulator/i-state-access.h)

The derived class is modelled as a record of the `do_*` hooks; `S` stands for
`machine_state *` (mutation through the pointer is explicit state passing:
void-returning methods yield the new state) and `P` for `pma_entry *`.
Machine words (`uint64_t`, `uint8_t`, `uint32_t`, `int`) are `Nat`; none of
the interface methods performs arithmetic on them, so no truncation point
arises.  The public methods of `i_state_access` forward to the hooks exactly
as written in the header. -/

section StateAccess

structure i_state_access (S P : Type) where
  do_read_register : S → Nat → Nat
  do_write_register : S → Nat → Nat → S
  do_read_pc : S → Nat
  do_write_pc : S → Nat → S
  do_read_minstret : S → Nat
  do_write_minstret : S → Nat → S
  do_read_mcycle : S → Nat
  do_write_mcycle : S → Nat → S
  do_read_mstatus : S → Nat
  do_write_mstatus : S → Nat → S
  do_read_mtvec : S → Nat
  do_write_mtvec : S → Nat → S
  do_read_mscratch : S → Nat
  do_write_mscratch : S → Nat → S
  do_read_mepc : S → Nat
  do_write_mepc : S → Nat → S
  do_read_mcause : S → Nat
  do_write_mcause : S → Nat → S
  do_read_mtval : S → Nat
  do_write_mtval : S → Nat → S
  do_read_misa : S → Nat
  do_write_misa : S → Nat → S
  do_read_mie : S → Nat
  do_write_mie : S → Nat → S
  do_read_mip : S → Nat
  do_write_mip : S → Nat → S
  do_read_medeleg : S → Nat
  do_write_medeleg : S → Nat → S
  do_read_mideleg : S → Nat
  do_write_mideleg : S → Nat → S
  do_read_mcounteren : S → Nat
  do_write_mcounteren : S → Nat → S
  do_read_stvec : S → Nat
  do_write_stvec : S → Nat → S
  do_read_sscratch : S → Nat
  do_write_sscratch : S → Nat → S
  do_read_sepc : S → Nat
  do_write_sepc : S → Nat → S
  do_read_scause : S → Nat
  do_write_scause : S → Nat → S
  do_read_stval : S → Nat
  do_write_stval : S → Nat → S
  do_read_satp : S → Nat
  do_write_satp : S → Nat → S
  do_read_scounteren : S → Nat
  do_write_scounteren : S → Nat → S
  do_read_ilrsc : S → Nat
  do_write_ilrsc : S → Nat → S
  do_set_iflags_H : S → S
  do_read_iflags_H : S → Bool
  do_reset_iflags_I : S → S
  do_read_iflags_I : S → Bool
  do_read_iflags_PRV : S → Nat
  do_write_iflags_PRV : S → Nat → S
  do_read_mtimecmp : S → Nat
  do_write_mtimecmp : S → Nat → S
  do_read_fromhost : S → Nat
  do_write_fromhost : S → Nat → S
  do_read_tohost : S → Nat
  do_write_tohost : S → Nat → S
  do_read_pma : S → Nat → P
  do_read_memory : S → P → Nat → Nat → Nat → S
  do_write_memory : S → P → Nat → Nat → Nat → S

namespace i_state_access

variable {S P : Type}

def read_register (a : i_state_access S P) (s : S) (reg : Nat) : Nat :=
  a.do_read_register s reg

def write_register (a : i_state_access S P) (s : S) (reg val : Nat) : S :=
  a.do_write_register s reg val

def read_pc (a : i_state_access S P) (s : S) : Nat :=
  a.do_read_pc s

def write_pc (a : i_state_access S P) (s : S) (val : Nat) : S :=
  a.do_write_pc s val

def read_minstret (a : i_state_access S P) (s : S) : Nat :=
  a.do_read_minstret s

def write_minstret (a : i_state_access S P) (s : S) (val : Nat) : S :=
  a.do_write_minstret s val

def read_mcycle (a : i_state_access S P) (s : S) : Nat :=
  a.do_read_mcycle s

def write_mcycle (a : i_state_access S P) (s : S) (val : Nat) : S :=
  a.do_write_mcycle s val

def read_mstatus (a : i_state_access S P) (s : S) : Nat :=
  a.do_read_mstatus s

def write_mstatus (a : i_state_access S P) (s : S) (val : Nat) : S :=
  a.do_write_mstatus s val

def read_mtvec (a : i_state_access S P) (s : S) : Nat :=
  a.do_read_mtvec s

def write_mtvec (a : i_state_access S P) (s : S) (val : Nat) : S :=
  a.do_write_mtvec s val

def read_mscratch (a : i_state_access S P) (s : S) : Nat :=
  a.do_read_mscratch s

def write_mscratch (a : i_state_access S P) (s : S) (val : Nat) : S :=
  a.do_write_mscratch s val

def read_mepc (a : i_state_access S P) (s : S) : Nat :=
  a.do_read_mepc s

def write_mepc (a : i_state_access S P) (s : S) (val : Nat) : S :=
  a.do_write_mepc s val

def read_mcause (a : i_state_access S P) (s : S) : Nat :=
  a.do_read_mcause s

def write_mcause (a : i_state_access S P) (s : S) (val : Nat) : S :=
  a.do_write_mcause s val

def read_mtval (a : i_state_access S P) (s : S) : Nat :=
  a.do_read_mtval s

def write_mtval (a : i_state_access S P) (s : S) (val : Nat) : S :=
  a.do_write_mtval s val

def read_misa (a : i_state_access S P) (s : S) : Nat :=
  a.do_read_misa s

def write_misa (a : i_state_access S P) (s : S) (val : Nat) : S :=
  a.do_write_misa s val

def read_mie (a : i_state_access S P) (s : S) : Nat :=
  a.do_read_mie s

def write_mie (a : i_state_access S P) (s : S) (val : Nat) : S :=
  a.do_write_mie s val

def read_mip (a : i_state_access S P) (s : S) : Nat :=
  a.do_read_mip s

def write_mip (a : i_state_access S P) (s : S) (val : Nat) : S :=
  a.do_write_mip s val

def read_medeleg (a : i_state_access S P) (s : S) : Nat :=
  a.do_read_medeleg s

def write_medeleg (a : i_state_access S P) (s : S) (val : Nat) : S :=
  a.do_write_medeleg s val

def read_mideleg (a : i_state_access S P) (s : S) : Nat :=
  a.do_read_mideleg s

def write_mideleg (a : i_state_access S P) (s : S) (val : Nat) : S :=
  a.do_write_mideleg s val

def read_mcounteren (a : i_state_access S P) (s : S) : Nat :=
  a.do_read_mcounteren s

def write_mcounteren (a : i_state_access S P) (s : S) (val : Nat) : S :=
  a.do_write_mcounteren s val

def read_stvec (a : i_state_access S P) (s : S) : Nat :=
  a.do_read_stvec s

def write_stvec (a : i_state_access S P) (s : S) (val : Nat) : S :=
  a.do_write_stvec s val

def read_sscratch (a : i_state_access S P) (s : S) : Nat :=
  a.do_read_sscratch s

def write_sscratch (a : i_state_access S P) (s : S) (val : Nat) : S :=
  a.do_write_sscratch s val

def read_sepc (a : i_state_access S P) (s : S) : Nat :=
  a.do_read_sepc s

def write_sepc (a : i_state_access S P) (s : S) (val : Nat) : S :=
  a.do_write_sepc s val

def read_scause (a : i_state_access S P) (s : S) : Nat :=
  a.do_read_scause s

def write_scause (a : i_state_access S P) (s : S) (val : Nat) : S :=
  a.do_write_scause s val

def read_stval (a : i_state_access S P) (s : S) : Nat :=
  a.do_read_stval s

def write_stval (a : i_state_access S P) (s : S) (val : Nat) : S :=
  a.do_write_stval s val

def read_satp (a : i_state_access S P) (s : S) : Nat :=
  a.do_read_satp s

def write_satp (a : i_state_access S P) (s : S) (val : Nat) : S :=
  a.do_write_satp s val

def read_scounteren (a : i_state_access S P) (s : S) : Nat :=
  a.do_read_scounteren s

def write_scounteren (a : i_state_access S P) (s : S) (val : Nat) : S :=
  a.do_write_scounteren s val

def read_ilrsc (a : i_state_access S P) (s : S) : Nat :=
  a.do_read_ilrsc s

def write_ilrsc (a : i_state_access S P) (s : S) (val : Nat) : S :=
  a.do_write_ilrsc s val

def set_iflags_H (a : i_state_access S P) (s : S) : S :=
  a.do_set_iflags_H s

def read_iflags_H (a : i_state_access S P) (s : S) : Bool :=
  a.do_read_iflags_H s

def reset_iflags_I (a : i_state_access S P) (s : S) : S :=
  a.do_reset_iflags_I s

def read_iflags_I (a : i_state_access S P) (s : S) : Bool :=
  a.do_read_iflags_I s

def read_iflags_PRV (a : i_state_access S P) (s : S) : Nat :=
  a.do_read_iflags_PRV s

def write_iflags_PRV (a : i_state_access S P) (s : S) (val : Nat) : S :=
  a.do_write_iflags_PRV s val

def read_mtimecmp (a : i_state_access S P) (s : S) : Nat :=
  a.do_read_mtimecmp s

def write_mtimecmp (a : i_state_access S P) (s : S) (val : Nat) : S :=
  a.do_write_mtimecmp s val

def read_fromhost (a : i_state_access S P) (s : S) : Nat :=
  a.do_read_fromhost s

def write_fromhost (a : i_state_access S P) (s : S) (val : Nat) : S :=
  a.do_write_fromhost s val

def read_tohost (a : i_state_access S P) (s : S) : Nat :=
  a.do_read_tohost s

def write_tohost (a : i_state_access S P) (s : S) (val : Nat) : S :=
  a.do_write_tohost s val

def read_pma (a : i_state_access S P) (s : S) (i : Nat) : P :=
  a.do_read_pma s i

/-- Method `i_state_access::read_memory` exactly as in the header: it forwards to
`do_write_memory` (not to `do_read_memory`). -/
def read_memory (a : i_state_access S P) (s : S) (entry : P) (paddr val size_log2 : Nat) : S :=
  a.do_write_memory s entry paddr val size_log2

def write_memory (a : i_state_access S P) (s : S) (entry : P) (paddr val size_log2 : Nat) : S :=
  a.do_write_memory s entry paddr val size_log2

end i_state_access

/-- A concrete conforming derived implementation over `S := Nat`, `P := Unit`:
every hook is effect-free except `do_write_memory`, which increments the
state, so a memory read and a memory write are observably distinct. -/
def demo_state_access : i_state_access Nat Unit where
  do_read_register := fun _ _ => 0
  do_write_register := fun s _ _ => s
  do_read_pc := fun _ => 0
  do_write_pc := fun s _ => s
  do_read_minstret := fun _ => 0
  do_write_minstret := fun s _ => s
  do_read_mcycle := fun _ => 0
  do_write_mcycle := fun s _ => s
  do_read_mstatus := fun _ => 0
  do_write_mstatus := fun s _ => s
  do_read_mtvec := fun _ => 0
  do_write_mtvec := fun s _ => s
  do_read_mscratch := fun _ => 0
  do_write_mscratch := fun s _ => s
  do_read_mepc := fun _ => 0
  do_write_mepc := fun s _ => s
  do_read_mcause := fun _ => 0
  do_write_mcause := fun s _ => s
  do_read_mtval := fun _ => 0
  do_write_mtval := fun s _ => s
  do_read_misa := fun _ => 0
  do_write_misa := fun s _ => s
  do_read_mie := fun _ => 0
  do_write_mie := fun s _ => s
  do_read_mip := fun _ => 0
  do_write_mip := fun s _ => s
  do_read_medeleg := fun _ => 0
  do_write_medeleg := fun s _ => s
  do_read_mideleg := fun _ => 0
  do_write_mideleg := fun s _ => s
  do_read_mcounteren := fun _ => 0
  do_write_mcounteren := fun s _ => s
  do_read_stvec := fun _ => 0
  do_write_stvec := fun s _ => s
  do_read_sscratch := fun _ => 0
  do_write_sscratch := fun s _ => s
  do_read_sepc := fun _ => 0
  do_write_sepc := fun s _ => s
  do_read_scause := fun _ => 0
  do_write_scause := fun s _ => s
  do_read_stval := fun _ => 0
  do_write_stval := fun s _ => s
  do_read_satp := fun _ => 0
  do_write_satp := fun s _ => s
  do_read_scounteren := fun _ => 0
  do_write_scounteren := fun s _ => s
  do_read_ilrsc := fun _ => 0
  do_write_ilrsc := fun s _ => s
  do_set_iflags_H := fun s => s
  do_read_iflags_H := fun _ => false
  do_reset_iflags_I := fun s => s
  do_read_iflags_I := fun _ => false
  do_read_iflags_PRV := fun _ => 0
  do_write_iflags_PRV := fun s _ => s
  do_read_mtimecmp := fun _ => 0
  do_write_mtimecmp := fun s _ => s
  do_read_fromhost := fun _ => 0
  do_write_fromhost := fun s _ => s
  do_read_tohost := fun _ => 0
  do_write_tohost := fun s _ => s
  do_read_pma := fun _ _ => ()
  do_read_memory := fun s _ _ _ _ => s
  do_write_memory := fun s _ _ _ _ => s + 1

end StateAccess

/-! ### The Lua verifier bindings (src/src/clua-machine.cpp)

Each `machine_class_index_verify_*` function calls the corresponding
`cm_verify_*` C-API entry point (abstracted as a record field, since those
implementations are outside the focal sources), raises a Lua error carrying
`cm_get_last_error_message()` when the call returns nonzero, and pushes the
number 1 on success.  `AccessLog` and `CmHash` stand for `cm_access_log *`
and `cm_hash`; response data is a byte string with its length. -/

section CluaMachine

/-- Outcome of a Lua C-function: either `luaL_error` with a message, or a
normal return that pushed the given number. -/
inductive lua_outcome where
  | raise (msg : String)
  | pushed (n : Nat)
deriving DecidableEq, Repr, Repr

structure cm_api (AccessLog CmHash : Type) where
  cm_verify_step_uarch_log : AccessLog → Bool → Int
  cm_verify_step_uarch_state_transition : CmHash → AccessLog → CmHash → Bool → Int
  cm_verify_reset_uarch_log : AccessLog → Bool → Int
  cm_verify_reset_uarch_state_transition : CmHash → AccessLog → CmHash → Bool → Int
  cm_verify_send_cmio_response_log : Nat → List Nat → Nat → AccessLog → Bool → Int
  cm_verify_send_cmio_response_state_transition :
    Nat → List Nat → Nat → CmHash → AccessLog → CmHash → Bool → Int
  cm_get_last_error_message : String

variable {AccessLog CmHash : Type}

def machine_class_index_verify_step_uarch_log (api : cm_api AccessLog CmHash)
    (log : AccessLog) : lua_outcome :=
  if api.cm_verify_step_uarch_log log true ≠ 0 then .raise api.cm_get_last_error_message
  else .pushed 1

def machine_class_index_verify_step_uarch_state_transition (api : cm_api AccessLog CmHash)
    (root_hash : CmHash) (log : AccessLog) (target_hash : CmHash) : lua_outcome :=
  if api.cm_verify_step_uarch_state_transition root_hash log target_hash true ≠ 0 then
    .raise api.cm_get_last_error_message
  else .pushed 1

def machine_class_index_verify_reset_uarch_log (api : cm_api AccessLog CmHash)
    (log : AccessLog) : lua_outcome :=
  if api.cm_verify_reset_uarch_log log true ≠ 0 then .raise api.cm_get_last_error_message
  else .pushed 1

def machine_class_index_verify_reset_uarch_state_transition (api : cm_api AccessLog CmHash)
    (root_hash : CmHash) (log : AccessLog) (target_hash : CmHash) : lua_outcome :=
  if api.cm_verify_reset_uarch_state_transition root_hash log target_hash true ≠ 0 then
    .raise api.cm_get_last_error_message
  else .pushed 1

def machine_class_index_verify_send_cmio_response_log (api : cm_api AccessLog CmHash)
    (reason : Nat) (data : List Nat) (length : Nat) (log : AccessLog) : lua_outcome :=
  if api.cm_verify_send_cmio_response_log reason data length log true ≠ 0 then
    .raise api.cm_get_last_error_message
  else .pushed 1

def machine_class_index_verify_send_cmio_response_state_transition
    (api : cm_api AccessLog CmHash) (reason : Nat) (data : List Nat) (length : Nat)
    (root_hash : CmHash) (log : AccessLog) (target_hash : CmHash) : lua_outcome :=
  if api.cm_verify_send_cmio_response_state_transition reason data length root_hash log
      target_hash true ≠ 0 then
    .raise api.cm_get_last_error_message
  else .pushed 1

end CluaMachine


/-! ### Arithmetic and spec-tree helper lemmas -/

section Helpers

variable {Hash : Type}

theorem doubleIter_add (H : Hash → Hash → Hash) (x : Hash) (a b : Nat) :
    doubleIter H x (a + b) = doubleIter H (doubleIter H x a) b := by
  induction b with
  | zero => rfl
  | succ b ih => simp [doubleIter, ih]

theorem merkle_root_congr (H : Hash → Hash → Hash) {f g : Nat → Hash} {d : Nat}
    (h : ∀ j, j < 2 ^ d → f j = g j) : merkle_root H f d = merkle_root H g d := by
  induction d generalizing f g with
  | zero => simpa [merkle_root] using h 0 (by norm_num)
  | succ d ih =>
    have h2 : 2 ^ (d + 1) = 2 ^ d * 2 := pow_succ 2 d
    simp only [merkle_root]
    rw [ih fun j hj => h j (by omega), ih fun j hj => h (2 ^ d + j) (by omega)]

theorem merkle_root_const (H : Hash → Hash → Hash) {f : Nat → Hash} {x : Hash} {d : Nat}
    (h : ∀ j, f j = x) : merkle_root H f d = doubleIter H x d := by
  induction d generalizing f with
  | zero => simpa [merkle_root, doubleIter] using h 0
  | succ d ih => simp only [merkle_root, doubleIter, ih fun j => h j, ih fun j => h (2 ^ d + j)]

theorem testBit_true_div {n i : Nat} (h : n.testBit i = true) : n / 2 ^ i % 2 = 1 := by
  rw [Nat.testBit_to_div_mod] at h
  simpa using h

theorem testBit_false_div {n i : Nat} (h : n.testBit i = false) : n / 2 ^ i % 2 = 0 := by
  rw [Nat.testBit_to_div_mod] at h
  simp at h
  omega

theorem div_succ_pow_set {n i : Nat} (h : n.testBit i = true) :
    n / 2 ^ i = 2 * (n / 2 ^ (i + 1)) + 1 := by
  have h1 := Nat.div_add_mod (n / 2 ^ i) 2
  rw [Nat.div_div_eq_div_mul, ← pow_succ] at h1
  have h2 := testBit_true_div h
  omega

theorem div_succ_pow_clear {n i : Nat} (h : n.testBit i = false) :
    n / 2 ^ i = 2 * (n / 2 ^ (i + 1)) := by
  have h1 := Nat.div_add_mod (n / 2 ^ i) 2
  rw [Nat.div_div_eq_div_mul, ← pow_succ] at h1
  have h2 := testBit_false_div h
  omega

theorem chunk_base_set {n i : Nat} (h : n.testBit i = true) :
    n / 2 ^ (i + 1) * 2 ^ (i + 1) + 2 ^ i = n / 2 ^ i * 2 ^ i := by
  rw [div_succ_pow_set h, pow_succ]
  ring

theorem chunk_base_clear {n i : Nat} (h : n.testBit i = false) :
    n / 2 ^ (i + 1) * 2 ^ (i + 1) = n / 2 ^ i * 2 ^ i := by
  rw [div_succ_pow_clear h, pow_succ]
  ring

theorem lt_chunk_base_add (n i : Nat) : n < n / 2 ^ i * 2 ^ i + 2 ^ i := by
  have h := Nat.div_add_mod n (2 ^ i)
  have h2 : n % 2 ^ i < 2 ^ i := Nat.mod_lt n (Nat.two_pow_pos i)
  rw [mul_comm] at h
  omega

theorem chunk_base_le (n i : Nat) : n / 2 ^ i * 2 ^ i ≤ n :=
  Nat.div_mul_le_self n (2 ^ i)

theorem trailing_ones_mod {n k : Nat} (h : ∀ j, j < k → n.testBit j = true) :
    n % 2 ^ k = 2 ^ k - 1 := by
  apply Nat.eq_of_testBit_eq
  intro j
  rw [Nat.testBit_mod_two_pow, Nat.testBit_two_pow_sub_one]
  by_cases hj : j < k
  · simp [hj, h j hj]
  · simp [hj]

/-- Binary increment of a number whose bits below `i` are all set and whose
bit `i` is clear: the decomposition `n + 1 = 2^(i+1) * (n / 2^(i+1)) + 2^i`. -/
theorem carry_decomp {n i : Nat} (hset : ∀ j, j < i → n.testBit j = true)
    (hclr : n.testBit i = false) :
    n + 1 = 2 ^ (i + 1) * (n / 2 ^ (i + 1)) + 2 ^ i := by
  have h1 : n % 2 ^ i = 2 ^ i - 1 := trailing_ones_mod hset
  have hdq : n / 2 ^ i = 2 * (n / 2 ^ (i + 1)) := div_succ_pow_clear hclr
  have hp : 0 < 2 ^ i := Nat.two_pow_pos i
  have h4 := Nat.div_add_mod n (2 ^ i)
  rw [hdq, h1] at h4
  have e2 : n + 1 = 2 ^ i * (2 * (n / 2 ^ (i + 1))) + 2 ^ i := by omega
  rw [e2, pow_succ]
  ring

theorem testBit_false_of_two_pow_succ_dvd {n m : Nat} (h : 2 ^ (m + 1) ∣ n) :
    n.testBit m = false := by
  rcases h with ⟨c, hc⟩
  rw [Nat.testBit_to_div_mod]
  have : n / 2 ^ m = 2 * c := by
    rw [hc, pow_succ]
    rw [show 2 ^ m * 2 * c = 2 ^ m * (2 * c) by ring, Nat.mul_div_cancel_left _ (Nat.two_pow_pos m)]
  simp [this, Nat.mul_mod_right]

theorem trailing_base {n k : Nat} (h : ∀ j, j < k → n.testBit j = true) :
    n / 2 ^ k * 2 ^ k = n + 1 - 2 ^ k := by
  have h1 := trailing_ones_mod h
  have h2 := Nat.div_add_mod n (2 ^ k)
  have h3 : 0 < 2 ^ k := Nat.two_pow_pos k
  rw [mul_comm] at h2
  omega

theorem carry_div_succ {n i : Nat} (hset : ∀ j, j < i → n.testBit j = true)
    (hclr : n.testBit i = false) : (n + 1) / 2 ^ (i + 1) = n / 2 ^ (i + 1) := by
  rw [carry_decomp hset hclr, Nat.mul_add_div (Nat.two_pow_pos (i + 1)),
    Nat.div_eq_of_lt (Nat.pow_lt_pow_succ (by norm_num)), Nat.add_zero]

theorem carry_div_gt {n i m : Nat} (hset : ∀ j, j < i → n.testBit j = true)
    (hclr : n.testBit i = false) (hm : i < m) : (n + 1) / 2 ^ m = n / 2 ^ m := by
  have e : 2 ^ (i + 1) * 2 ^ (m - (i + 1)) = 2 ^ m := by
    rw [← pow_add]
    congr 1
    omega
  rw [← e, ← Nat.div_div_eq_div_mul, ← Nat.div_div_eq_div_mul, carry_div_succ hset hclr]

theorem carry_testBit_gt {n i m : Nat} (hset : ∀ j, j < i → n.testBit j = true)
    (hclr : n.testBit i = false) (hm : i < m) : (n + 1).testBit m = n.testBit m := by
  rw [Nat.testBit_to_div_mod, Nat.testBit_to_div_mod, carry_div_gt hset hclr hm]

theorem carry_testBit_eq {n i : Nat} (hset : ∀ j, j < i → n.testBit j = true)
    (hclr : n.testBit i = false) : (n + 1).testBit i = true := by
  have hd : n + 1 = 2 ^ i * (2 * (n / 2 ^ (i + 1)) + 1) := by
    rw [carry_decomp hset hclr, pow_succ]
    ring
  rw [Nat.testBit_to_div_mod, hd, Nat.mul_div_cancel_left _ (Nat.two_pow_pos i)]
  simp [Nat.mul_add_mod]

theorem carry_testBit_lt {n i m : Nat} (hset : ∀ j, j < i → n.testBit j = true)
    (hclr : n.testBit i = false) (hm : m < i) : (n + 1).testBit m = false := by
  apply testBit_false_of_two_pow_succ_dvd
  rw [carry_decomp hset hclr]
  exact dvd_add (dvd_mul_of_dvd_left (pow_dvd_pow 2 (by omega)) _) (pow_dvd_pow 2 (by omega))

theorem carry_base_eq {n i : Nat} (hset : ∀ j, j < i → n.testBit j = true)
    (hclr : n.testBit i = false) :
    (n + 1) / 2 ^ (i + 1) * 2 ^ (i + 1) = n + 1 - 2 ^ i := by
  have hd := carry_decomp hset hclr
  have h3 : 0 < 2 ^ i := Nat.two_pow_pos i
  rw [carry_div_succ hset hclr]
  rw [mul_comm] at hd
  omega

end Helpers

/-! ### Loop invariants of the back Merkle tree operations -/

section Loops

variable {Hash : Type}

/-- Invariant of the `get_root_hash` fold: starting from the height-`i`
accumulation of the aligned chunk at the base `n / 2^i * 2^i`, the loop ends
with the height-`d` accumulation at base `n / 2^d * 2^d`. -/
theorem get_root_hash_loop_spec (H : Hash → Hash → Hash) (pw p : Hash) (F : Nat → Hash)
    (n lleaf lw lr d : Nat) (ctx : List Hash)
    (hp : p = doubleIter H pw (lleaf - lw)) (hlw : lw ≤ lleaf) (hlr : lleaf + d ≤ lr + 1)
    (hctx : ∀ m, n.testBit m = true →
      ctx.get? m = some (merkle_root H (fun j => F (n / 2 ^ (m + 1) * 2 ^ (m + 1) + j)) m))
    (hF : ∀ j, n ≤ j → F j = p) :
    ∀ fuel i acc, i + fuel = d →
      acc = merkle_root H (fun j => F (n / 2 ^ i * 2 ^ i + j)) i →
      get_root_hash_loop H pw n lleaf lw lr ctx fuel i acc =
        .ok (merkle_root H (fun j => F (n / 2 ^ d * 2 ^ d + j)) d) := by
  intro fuel
  induction fuel with
  | zero =>
    intro i acc hid hacc
    have hi : i = d := by omega
    subst hi
    simp [get_root_hash_loop, hacc]
  | succ fuel ih =>
    intro i acc hid hacc
    have hi : i < d := by omega
    by_cases hb : n.testBit i = true
    · have hc := hctx i hb
      rw [get_root_hash_loop, if_pos hb]
      unfold ctxGet
      rw [hc]
      show get_root_hash_loop H pw n lleaf lw lr ctx fuel (i + 1) _ = _
      apply ih (i + 1) _ (by omega)
      have hbase := chunk_base_set hb
      simp only [merkle_root]
      rw [hacc]
      congr 1
      apply merkle_root_congr
      intro j hj
      congr 1
      omega
    · have hb' : n.testBit i = false := by simpa using hb
      rw [get_root_hash_loop, if_neg (by simp [hb'])]
      have hpr : pristine_get_hash H pw lw lr (lleaf + i) =
          .ok (doubleIter H pw (lleaf + i - lw)) := by
        rw [pristine_get_hash, if_pos ⟨by omega, by omega⟩]
      rw [hpr]
      show get_root_hash_loop H pw n lleaf lw lr ctx fuel (i + 1) _ = _
      apply ih (i + 1) _ (by omega)
      have hbase := chunk_base_clear hb'
      have hlt := lt_chunk_base_add n i
      simp only [merkle_root]
      congr 1
      · rw [hacc]
        apply merkle_root_congr
        intro j hj
        congr 1
        omega
      · rw [show lleaf + i - lw = (lleaf - lw) + i by omega, doubleIter_add, ← hp]
        symm
        apply merkle_root_const
        intro j
        apply hF
        omega

/-- Invariant of the `push_back` carry loop: entering level `i` with the bits
of `n` below `i` all set and `right` the accumulated hash of the last `2^i`
leaves, the loop terminates by storing at the lowest clear bit, and the
resulting context holds the aligned-chunk hashes for `n + 1`. -/
theorem push_back_loop_spec (H : Hash → Hash → Hash) (F : Nat → Hash) (n d : Nat)
    (hn : n < 2 ^ d) :
    ∀ fuel i right ctx, i + fuel = d + 1 → ctx.length = d + 1 →
      (∀ j, j < i → n.testBit j = true) →
      (∀ m, n.testBit m = true →
        ctx.get? m = some (merkle_root H (fun j => F (n / 2 ^ (m + 1) * 2 ^ (m + 1) + j)) m)) →
      right = merkle_root H (fun j => F (n + 1 - 2 ^ i + j)) i →
      ∃ ctx', push_back_loop H n fuel i right ctx = .ok ctx' ∧ ctx'.length = d + 1 ∧
        ∀ m, (n + 1).testBit m = true →
          ctx'.get? m =
            some (merkle_root H (fun j => F ((n + 1) / 2 ^ (m + 1) * 2 ^ (m + 1) + j)) m) := by
  intro fuel
  induction fuel with
  | zero =>
    intro i right ctx hid hlen hlow hctx hright
    exfalso
    have h1 := @trailing_ones_mod n (d + 1) fun j hj => hlow j (by omega)
    have h2 : n % 2 ^ (d + 1) ≤ n := Nat.mod_le n _
    have h3 : 2 ^ (d + 1) = 2 * 2 ^ d := by rw [pow_succ]; ring
    omega
  | succ fuel ih =>
    intro i right ctx hid hlen hlow hctx hright
    have hi : i ≤ d := by omega
    by_cases hb : n.testBit i = true
    · have hc := hctx i hb
      have hset' : ∀ j, j < i + 1 → n.testBit j = true := by
        intro j hj
        rcases Nat.lt_or_ge j i with h | h
        · exact hlow j h
        · have he : j = i := by omega
          rw [he]
          exact hb
      rw [push_back_loop, if_pos hb]
      unfold ctxGet
      rw [hc]
      show ∃ ctx', push_back_loop H n fuel (i + 1) _ ctx = .ok ctx' ∧ _
      apply ih (i + 1) _ ctx (by omega) hlen (fun j hj => hset' j hj) hctx
      have hbase := trailing_base hset'
      have hmod := trailing_ones_mod hset'
      have hmodle : n % 2 ^ (i + 1) ≤ n := Nat.mod_le n _
      have hpow : 2 ^ (i + 1) = 2 * 2 ^ i := by rw [pow_succ]; ring
      have hple : 0 < 2 ^ i := Nat.two_pow_pos i
      simp only [merkle_root]
      congr 1
      · rw [hbase]
      · rw [hright]
        apply merkle_root_congr
        intro j hj
        congr 1
        omega
    · have hb' : n.testBit i = false := by simpa using hb
      have hilen : i < ctx.length := by omega
      rw [push_back_loop, if_neg (by simp [hb']), if_pos hilen]
      refine ⟨ctx.set i right, rfl, by rw [List.length_set, hlen], ?_⟩
      intro m hm
      rcases Nat.lt_trichotomy m i with hlt | heq | hgt
      · rw [carry_testBit_lt hlow hb' hlt] at hm
        exact absurd hm (by simp)
      · subst heq
        have hget : (ctx.set m right).get? m = some right := by
          simp [List.get?_eq_getElem?, List.getElem?_set_self, show m < ctx.length by omega]
        rw [hget, hright]
        congr 2
        funext j
        rw [carry_base_eq hlow hb']
      · have hget : (ctx.set i right).get? m = ctx.get? m := List.get?_set_ne right ctx (by omega)
        rw [hget]
        rw [carry_testBit_gt hlow hb' hgt] at hm
        rw [hctx m hm]
        congr 2
        funext j
        rw [carry_div_gt hlow hb' (by omega)]

/-- Invariant of the `get_next_leaf_proof` fold: it extends the sibling list
by one hash per level, computes the same accumulator as the `get_root_hash`
fold, and the recorded siblings re-fold (in `verify`'s manner, driven by the
bits of `n` from bit `i` up) from the accumulator to the final root. -/
theorem get_next_leaf_proof_loop_spec (H : Hash → Hash → Hash) (pw p : Hash) (F : Nat → Hash)
    (n lleaf lw lr d : Nat) (ctx : List Hash)
    (hp : p = doubleIter H pw (lleaf - lw)) (hlw : lw ≤ lleaf) (hlr : lleaf + d ≤ lr + 1)
    (hctx : ∀ m, n.testBit m = true →
      ctx.get? m = some (merkle_root H (fun j => F (n / 2 ^ (m + 1) * 2 ^ (m + 1) + j)) m))
    (hF : ∀ j, n ≤ j → F j = p) :
    ∀ fuel i acc sibs, i + fuel = d →
      acc = merkle_root H (fun j => F (n / 2 ^ i * 2 ^ i + j)) i →
      ∃ tail, get_next_leaf_proof_loop H pw n lleaf lw lr ctx fuel i acc sibs =
          .ok (merkle_root H (fun j => F (n / 2 ^ d * 2 ^ d + j)) d, sibs ++ tail) ∧
        tail.length = fuel ∧
        fold_siblings H tail (n >>> i) acc =
          merkle_root H (fun j => F (n / 2 ^ d * 2 ^ d + j)) d := by
  intro fuel
  induction fuel with
  | zero =>
    intro i acc sibs hid hacc
    have hi : i = d := by omega
    subst hi
    refine ⟨[], ?_, rfl, ?_⟩
    · simp [get_next_leaf_proof_loop, hacc]
    · simp [fold_siblings, hacc]
  | succ fuel ih =>
    intro i acc sibs hid hacc
    have hi : i < d := by omega
    have hshift : n >>> i / 2 = n >>> (i + 1) := by
      rw [Nat.shiftRight_eq_div_pow, Nat.shiftRight_eq_div_pow, Nat.div_div_eq_div_mul, ← pow_succ]
    have hmod2 : n >>> i % 2 = n / 2 ^ i % 2 := by rw [Nat.shiftRight_eq_div_pow]
    by_cases hb : n.testBit i = true
    · have hc := hctx i hb
      have hbase := chunk_base_set hb
      have hacc' : H (merkle_root H (fun j => F (n / 2 ^ (i + 1) * 2 ^ (i + 1) + j)) i) acc =
          merkle_root H (fun j => F (n / 2 ^ (i + 1) * 2 ^ (i + 1) + j)) (i + 1) := by
        simp only [merkle_root]
        rw [hacc]
        congr 1
        apply merkle_root_congr
        intro j hj
        congr 1
        omega
      rw [get_next_leaf_proof_loop, if_pos hb]
      unfold ctxGet
      rw [hc]
      show ∃ tail, get_next_leaf_proof_loop H pw n lleaf lw lr ctx fuel (i + 1) _ _ = _ ∧ _
      obtain ⟨tail, heq, hlentail, hfold⟩ :=
        ih (i + 1) (H (merkle_root H (fun j => F (n / 2 ^ (i + 1) * 2 ^ (i + 1) + j)) i) acc)
          (sibs ++ [merkle_root H (fun j => F (n / 2 ^ (i + 1) * 2 ^ (i + 1) + j)) i])
          (by omega) hacc'
      refine ⟨merkle_root H (fun j => F (n / 2 ^ (i + 1) * 2 ^ (i + 1) + j)) i :: tail, ?_, by
        simp [hlentail], ?_⟩
      · rw [heq]
        simp
      · rw [fold_siblings]
        rw [if_pos (by rw [hmod2, testBit_true_div hb]), hshift]
        exact hfold
    · have hb' : n.testBit i = false := by simpa using hb
      have hbase := chunk_base_clear hb'
      have hlt := lt_chunk_base_add n i
      have hpr : pristine_get_hash H pw lw lr (lleaf + i) =
          .ok (doubleIter H pw (lleaf + i - lw)) := by
        rw [pristine_get_hash, if_pos ⟨by omega, by omega⟩]
      have hsib : doubleIter H pw (lleaf + i - lw) =
          merkle_root H (fun j => F (n / 2 ^ (i + 1) * 2 ^ (i + 1) + (2 ^ i + j))) i := by
        rw [show lleaf + i - lw = (lleaf - lw) + i by omega, doubleIter_add, ← hp]
        symm
        apply merkle_root_const
        intro j
        apply hF
        omega
      have hacc' : H acc (doubleIter H pw (lleaf + i - lw)) =
          merkle_root H (fun j => F (n / 2 ^ (i + 1) * 2 ^ (i + 1) + j)) (i + 1) := by
        simp only [merkle_root]
        rw [hsib, hacc]
        congr 1
        apply merkle_root_congr
        intro j hj
        congr 1
        omega
      rw [get_next_leaf_proof_loop, if_neg (by simp [hb']), hpr]
      show ∃ tail, get_next_leaf_proof_loop H pw n lleaf lw lr ctx fuel (i + 1) _ _ = _ ∧ _
      obtain ⟨tail, heq, hlentail, hfold⟩ :=
        ih (i + 1) (H acc (doubleIter H pw (lleaf + i - lw)))
          (sibs ++ [doubleIter H pw (lleaf + i - lw)]) (by omega) hacc'
      refine ⟨doubleIter H pw (lleaf + i - lw) :: tail, ?_, by simp [hlentail], ?_⟩
      · rw [heq]
        simp
      · rw [fold_siblings]
        rw [if_neg (by rw [hmod2, testBit_false_div hb']; omega), hshift]
        exact hfold

end Loops

/-! ### The spine invariant of reachable states -/

section Invariant

variable {Hash : Type}

/-- Success and postcondition of the carry loop, started from any
invariant-satisfying context that is not full. -/
theorem push_back_loop_of_inv {H : Hash → Hash → Hash} {r l w : Nat} {ls : List Hash}
    {t : back_merkle_tree Hash} (hI : tree_inv H r l w ls t)
    (hlt : ls.length < 2 ^ (r - l)) (x p : Hash) :
    ∃ ctx', push_back_loop H ls.length (r - l + 1) 0 x t.m_context = .ok ctx' ∧
      ctx'.length = (r - l) + 1 ∧
      ∀ m, (ls.length + 1).testBit m = true →
        ctx'.get? m = some (merkle_root H
          (fun j => leavesFun (ls ++ [x]) p
            ((ls.length + 1) / 2 ^ (m + 1) * 2 ^ (m + 1) + j)) m) := by
  obtain ⟨h1, h2, h3, h4, h5, h6, h7, h8, h9, h10, hspine⟩ := hI
  refine push_back_loop_spec H (leavesFun (ls ++ [x]) p) ls.length (r - l) hlt
    (r - l + 1) 0 x t.m_context (by omega) h6 (fun j hj => absurd hj (Nat.not_lt_zero j)) ?_ ?_
  · intro m hm
    rw [hspine p m hm]
    refine congrArg some ?_
    apply merkle_root_congr
    intro j hj
    have hb1 := chunk_base_set hm
    have hb2 := chunk_base_le ls.length m
    simp only [leavesFun]
    rw [List.getD_append ls [x] p _ (by omega)]
  · simp only [merkle_root, pow_zero, leavesFun]
    rw [show ls.length + 1 - 1 + 0 = ls.length by omega]
    rw [List.getD_append_right ls [x] p ls.length (le_refl _)]
    simp

theorem builds_tree_inv {H : Hash → Hash → Hash} {d0 : Hash} {r l w : Nat}
    {ls : List Hash} {t : back_merkle_tree Hash} (hB : Builds H d0 r l w ls t) :
    tree_inv H r l w ls t := by
  induction hB with
  | nil hwl hlr hr63 =>
    refine ⟨rfl, rfl, rfl, rfl, rfl, ?_, ?_, hwl, hlr, hr63, ?_⟩
    · simp [back_merkle_tree.fresh]
    · simp
    · intro p m hm
      simp at hm
  | @snoc ls t t' x hB hpush ih =>
    obtain ⟨h1, h2, h3, h4, h5, h6, h7, h8, h9, h10, hspine⟩ := ih
    rw [back_merkle_tree.push_back] at hpush
    have hnotfull : ¬t.m_leaf_count ≥ t.m_max_leaves := by
      intro hcon
      rw [if_pos hcon] at hpush
      exact Except.noConfusion hpush
    rw [if_neg hnotfull] at hpush
    have hlt : ls.length < 2 ^ (r - l) := by omega
    have hdep : t.depth = r - l := by
      rw [back_merkle_tree.depth, h1, h2]
    rw [hdep, h4] at hpush
    have hmain := fun p =>
      push_back_loop_of_inv ⟨h1, h2, h3, h4, h5, h6, h7, h8, h9, h10, hspine⟩ hlt x p
    obtain ⟨cv0, hloop0, hlen0, hrest0⟩ := hmain x
    rw [hloop0] at hpush
    simp only [Except.map] at hpush
    have ht' : ({ t with m_context := cv0, m_leaf_count := ls.length + 1 } :
        back_merkle_tree Hash) = t' := Except.ok.inj hpush
    rw [← ht']
    refine ⟨h1, h2, h3, by simp, h5, by simpa using hlen0, by simp; omega, h8, h9, h10, ?_⟩
    intro p m hm
    obtain ⟨cv', hloop', hlen', hchunks'⟩ := hmain p
    rw [hloop0] at hloop'
    have hcv : cv' = cv0 := (Except.ok.inj hloop').symm
    rw [hcv] at hchunks'
    simp only [List.length_append, List.length_singleton] at hm ⊢
    exact hchunks' m hm

/-- The root returned for any invariant-satisfying state is the spec-tree root
over the pushed leaves padded with pristine leaves. -/
theorem get_root_hash_of_inv {H : Hash → Hash → Hash} {pw : Hash} {r l w : Nat}
    {ls : List Hash} {t : back_merkle_tree Hash} (hI : tree_inv H r l w ls t) :
    t.get_root_hash H pw =
      .ok (merkle_root H (leavesFun ls (doubleIter H pw (l - w))) (r - l)) := by
  obtain ⟨h1, h2, h3, h4, h5, h6, h7, h8, h9, h10, hspine⟩ := hI
  have hdep : t.depth = r - l := by rw [back_merkle_tree.depth, h1, h2]
  rw [back_merkle_tree.get_root_hash]
  by_cases hfull : t.m_leaf_count < t.m_max_leaves
  · rw [if_pos hfull]
    have hn : ls.length < 2 ^ (r - l) := by omega
    have hpr : pristine_get_hash H pw t.m_log2_word_size t.m_log2_root_size
        t.m_log2_leaf_size = .ok (doubleIter H pw (l - w)) := by
      rw [h1, h2, h3, pristine_get_hash, if_pos ⟨h8, h9⟩]
    rw [hpr]
    show get_root_hash_loop H pw t.m_leaf_count t.m_log2_leaf_size t.m_log2_word_size
        t.m_log2_root_size t.m_context t.depth 0 (doubleIter H pw (l - w)) = _
    rw [h1, h2, h3, h4, hdep]
    have hres := get_root_hash_loop_spec H pw (doubleIter H pw (l - w))
      (leavesFun ls (doubleIter H pw (l - w))) ls.length l w r (r - l) t.m_context rfl h8
      (by omega) (fun m hm => hspine (doubleIter H pw (l - w)) m hm)
      (fun j hj => List.getD_eq_default ls _ hj) (r - l) 0 (doubleIter H pw (l - w))
      (by omega) ?_
    · rw [hres]
      refine congrArg Except.ok ?_
      apply merkle_root_congr
      intro j hj
      rw [Nat.div_eq_of_lt hn, Nat.zero_mul, Nat.zero_add]
    · simp only [merkle_root, pow_zero, Nat.div_one, Nat.mul_one, Nat.add_zero]
      exact (List.getD_eq_default ls _ (le_refl _)).symm
  · rw [if_neg hfull]
    have hn : ls.length = 2 ^ (r - l) := by omega
    have hbit : (ls.length).testBit (r - l) = true := by
      rw [hn]
      exact Nat.testBit_two_pow_self
    have hc := hspine (doubleIter H pw (l - w)) (r - l) hbit
    rw [hdep]
    unfold ctxGet
    rw [hc]
    refine congrArg Except.ok ?_
    have hdiv : ls.length / 2 ^ (r - l + 1) = 0 := by
      apply Nat.div_eq_of_lt
      rw [hn]
      exact Nat.pow_lt_pow_succ (by norm_num)
    apply merkle_root_congr
    intro j hj
    rw [hdiv, Nat.zero_mul, Nat.zero_add]

/-- Full characterization of `get_next_leaf_proof` on an invariant-satisfying
state that is not full: the call succeeds, the target is the pristine leaf at
address `leaf_count << log2_leaf_size`, the proof carries one sibling per
level, the root is the same spec-tree root as `get_root_hash` computes, and
the siblings re-fold from the target to the root. -/
theorem get_next_leaf_proof_of_inv {H : Hash → Hash → Hash} {pw : Hash} {r l w : Nat}
    {ls : List Hash} {t : back_merkle_tree Hash} (hI : tree_inv H r l w ls t)
    (hlt : t.m_leaf_count < t.m_max_leaves) :
    ∃ sibs, t.get_next_leaf_proof H pw =
        .ok { log2_root_size := r
              log2_target_size := l
              target_address := ls.length <<< l
              target_hash := doubleIter H pw (l - w)
              siblings := sibs
              root_hash := merkle_root H (leavesFun ls (doubleIter H pw (l - w))) (r - l) } ∧
      sibs.length = r - l ∧
      fold_siblings H sibs ls.length (doubleIter H pw (l - w)) =
        merkle_root H (leavesFun ls (doubleIter H pw (l - w))) (r - l) := by
  obtain ⟨h1, h2, h3, h4, h5, h6, h7, h8, h9, h10, hspine⟩ := hI
  have hdep : t.depth = r - l := by rw [back_merkle_tree.depth, h1, h2]
  have hn : ls.length < 2 ^ (r - l) := by omega
  have hroot_eq : merkle_root H
      (fun j => leavesFun ls (doubleIter H pw (l - w))
        (ls.length / 2 ^ (r - l) * 2 ^ (r - l) + j)) (r - l) =
      merkle_root H (leavesFun ls (doubleIter H pw (l - w))) (r - l) := by
    apply merkle_root_congr
    intro j hj
    rw [Nat.div_eq_of_lt hn, Nat.zero_mul, Nat.zero_add]
  obtain ⟨tail, heq, hlen, hfold⟩ := get_next_leaf_proof_loop_spec H pw
    (doubleIter H pw (l - w)) (leavesFun ls (doubleIter H pw (l - w))) ls.length l w r
    (r - l) t.m_context rfl h8 (by omega) (fun m hm => hspine _ m hm)
    (fun j hj => List.getD_eq_default ls _ hj) (r - l) 0 (doubleIter H pw (l - w)) []
    (by omega)
    (by simp only [merkle_root, pow_zero, Nat.div_one, Nat.mul_one, Nat.add_zero]
        exact (List.getD_eq_default ls _ (le_refl _)).symm)
  refine ⟨tail, ?_, by omega, ?_⟩
  · rw [back_merkle_tree.get_next_leaf_proof, if_neg (by omega)]
    have hpr : pristine_get_hash H pw t.m_log2_word_size t.m_log2_root_size
        t.m_log2_leaf_size = .ok (doubleIter H pw (l - w)) := by
      rw [h1, h2, h3, pristine_get_hash, if_pos ⟨h8, h9⟩]
    rw [hpr]
    show (get_next_leaf_proof_loop H pw t.m_leaf_count t.m_log2_leaf_size t.m_log2_word_size
        t.m_log2_root_size t.m_context t.depth 0 (doubleIter H pw (l - w)) []).map _ = _
    rw [h1, h2, h3, h4, hdep, heq]
    simp only [Except.map, List.nil_append]
    rw [hroot_eq]
  · rw [Nat.shiftRight_zero] at hfold
    rw [hfold, hroot_eq]

/-- `push_back` succeeds on any invariant-satisfying state that is not full. -/
theorem push_back_ok_of_inv {H : Hash → Hash → Hash} {r l w : Nat} {ls : List Hash}
    {t : back_merkle_tree Hash} (hI : tree_inv H r l w ls t) (x : Hash)
    (hlt : t.m_leaf_count < t.m_max_leaves) :
    ∃ t', t.push_back H x = .ok t' := by
  obtain ⟨h1, h2, h3, h4, h5, h6, h7, h8, h9, h10, hspine⟩ := hI
  have hdep : t.depth = r - l := by rw [back_merkle_tree.depth, h1, h2]
  have hn : ls.length < 2 ^ (r - l) := by omega
  obtain ⟨cv, hloop, hcl, hcc⟩ :=
    push_back_loop_of_inv ⟨h1, h2, h3, h4, h5, h6, h7, h8, h9, h10, hspine⟩ hn x x
  rw [back_merkle_tree.push_back, if_neg (by omega), hdep, h4, hloop]
  exact ⟨_, rfl⟩

end Invariant

/-! ### The claims -/

section Claims

variable {Hash : Type}

/-- C1: For every reachable state — any sequence of successfully pushed leaves
`ls` into a freshly constructed tree, so `leaf_count = ls.length ≤ max_leaves`
— `get_root_hash()` equals the root of the fully-specified binary Merkle tree
of height `depth` whose first `leaf_count` leaves are the pushed leaf hashes
in push order and whose remaining leaves are the pristine leaf hash; in
particular, on a freshly constructed tree with no leaves pushed, it equals the
pristine hash at height `log2_root_size`. -/
theorem C1_root_equivalence {H : Hash → Hash → Hash} {pw d0 : Hash} {r l w : Nat}
    {ls : List Hash} {t : back_merkle_tree Hash} (hB : Builds H d0 r l w ls t) :
    t.get_root_hash H pw =
      .ok (merkle_root H (leavesFun ls (doubleIter H pw (l - w))) (r - l)) ∧
    (ls = [] → t.get_root_hash H pw = .ok (doubleIter H pw (r - w))) := by
  obtain ⟨h1, h2, h3, h4, h5, h6, h7, h8, h9, h10, hspine⟩ := builds_tree_inv hB
  have hroot : t.get_root_hash H pw =
      .ok (merkle_root H (leavesFun ls (doubleIter H pw (l - w))) (r - l)) :=
    get_root_hash_of_inv
      (⟨h1, h2, h3, h4, h5, h6, h7, h8, h9, h10, hspine⟩ : tree_inv H r l w ls t)
  refine ⟨hroot, fun hnil => ?_⟩
  subst hnil
  rw [hroot]
  refine congrArg Except.ok ?_
  have hc : merkle_root H (leavesFun [] (doubleIter H pw (l - w))) (r - l) =
      doubleIter H (doubleIter H pw (l - w)) (r - l) :=
    merkle_root_const H fun j => by simp [leavesFun]
  rw [hc, ← doubleIter_add]
  congr 1
  omega

theorem C1_witness :
    Builds (fun a b => 2 * a + 3 * b + 1) (0 : Nat) 2 0 0 []
        (back_merkle_tree.fresh 0 2 0 0) ∧
      (back_merkle_tree.fresh 0 2 0 0 : back_merkle_tree Nat).get_root_hash
          (fun a b => 2 * a + 3 * b + 1) 5 =
        .ok (doubleIter (fun a b => 2 * a + 3 * b + 1) 5 2) :=
  have hB : Builds (fun a b => 2 * a + 3 * b + 1) (0 : Nat) 2 0 0 []
      (back_merkle_tree.fresh 0 2 0 0) :=
    Builds.nil (by decide) (by decide) (by decide)
  ⟨hB, (C1_root_equivalence hB).2 rfl⟩

/-- C2: `push_back` performs the binary-adder carry scan of the source, and
consequently after pushing exactly `L0, L1, L2, L3` into an empty tree (of
depth ≥ 2, which any tree reached by four successful pushes has),
`context[2]` holds `H(H(L0,L1), H(L2,L3))`. -/
theorem C2_push_back_carry_cascade {H : Hash → Hash → Hash} {d0 : Hash} {r l w : Nat}
    {t : back_merkle_tree Hash} (L0 L1 L2 L3 : Hash)
    (hB : Builds H d0 r l w [L0, L1, L2, L3] t) :
    t.m_context.get? 2 = some (H (H L0 L1) (H L2 L3)) := by
  obtain ⟨h1, h2, h3, h4, h5, h6, h7, h8, h9, h10, hspine⟩ := builds_tree_inv hB
  have hbit : ([L0, L1, L2, L3] : List Hash).length.testBit 2 = true := by
    show Nat.testBit 4 2 = true
    decide
  rw [hspine L0 2 hbit]
  refine congrArg some ?_
  show merkle_root H
      (fun j => leavesFun [L0, L1, L2, L3] L0 (4 / 2 ^ 3 * 2 ^ 3 + j)) 2 = _
  norm_num [merkle_root, leavesFun]

theorem C2_witness :
    Builds (fun a b => 2 * a + 3 * b + 1) (0 : Nat) 2 0 0 [1, 2, 3, 4]
        ⟨2, 0, 0, 4, 4, [3, 9, 76]⟩ ∧
      (⟨2, 0, 0, 4, 4, [3, 9, 76]⟩ : back_merkle_tree Nat).m_context.get? 2 = some 76 :=
  have h0 : Builds (fun a b => 2 * a + 3 * b + 1) (0 : Nat) 2 0 0 []
      (back_merkle_tree.fresh 0 2 0 0) :=
    Builds.nil (by decide) (by decide) (by decide)
  have e1 : (back_merkle_tree.fresh 0 2 0 0 : back_merkle_tree Nat).push_back
      (fun a b => 2 * a + 3 * b + 1) 1 = .ok ⟨2, 0, 0, 1, 4, [1, 0, 0]⟩ := rfl
  have e2 : (⟨2, 0, 0, 1, 4, [1, 0, 0]⟩ : back_merkle_tree Nat).push_back
      (fun a b => 2 * a + 3 * b + 1) 2 = .ok ⟨2, 0, 0, 2, 4, [1, 9, 0]⟩ := rfl
  have e3 : (⟨2, 0, 0, 2, 4, [1, 9, 0]⟩ : back_merkle_tree Nat).push_back
      (fun a b => 2 * a + 3 * b + 1) 3 = .ok ⟨2, 0, 0, 3, 4, [3, 9, 0]⟩ := rfl
  have e4 : (⟨2, 0, 0, 3, 4, [3, 9, 0]⟩ : back_merkle_tree Nat).push_back
      (fun a b => 2 * a + 3 * b + 1) 4 = .ok ⟨2, 0, 0, 4, 4, [3, 9, 76]⟩ := rfl
  have hB : Builds (fun a b => 2 * a + 3 * b + 1) (0 : Nat) 2 0 0 [1, 2, 3, 4]
      ⟨2, 0, 0, 4, 4, [3, 9, 76]⟩ :=
    Builds.snoc (Builds.snoc (Builds.snoc (Builds.snoc h0 e1) e2) e3) e4
  ⟨hB, C2_push_back_carry_cascade 1 2 3 4 hB⟩

/-- C3: Construction fails with an out-of-range error exactly when some size
parameter is negative, or `log2_leaf_size > log2_root_size`, or
`log2_word_size > log2_leaf_size`, or `log2_root_size ≥ 64` (the bit width of
the 64-bit address type); on failure no object is produced, and for every
other parameter triple construction succeeds. -/
theorem C3_construct_out_of_range (d0 : Hash) (r l w : Int) :
    ((∃ e, back_merkle_tree.construct d0 r l w = .error e) ↔
        r < 0 ∨ l < 0 ∨ w < 0 ∨ l > r ∨ w > l ∨ 64 ≤ r) ∧
      ((∃ t : back_merkle_tree Hash, back_merkle_tree.construct d0 r l w = .ok t) ↔
        ¬(r < 0 ∨ l < 0 ∨ w < 0 ∨ l > r ∨ w > l ∨ 64 ≤ r)) := by
  unfold back_merkle_tree.construct
  split_ifs with h1 h2 h3 h4 h5 h6 <;> constructor <;> simp <;> omega

/-- C4: On every reachable tree, `push_back` succeeds exactly when
`leaf_count < max_leaves` and fails with the tree-full error ("too many
leaves") exactly when `leaf_count = max_leaves`; likewise
`get_next_leaf_proof` succeeds exactly when `leaf_count < max_leaves` and
fails with its tree-full error exactly when `leaf_count = max_leaves`. -/
theorem C4_capacity_errors {H : Hash → Hash → Hash} {pw d0 : Hash} {r l w : Nat}
    {ls : List Hash} {t : back_merkle_tree Hash} (hB : Builds H d0 r l w ls t) (x : Hash) :
    ((∃ t', t.push_back H x = .ok t') ↔ t.m_leaf_count < t.m_max_leaves) ∧
      (t.push_back H x = .error "too many leaves" ↔ t.m_leaf_count = t.m_max_leaves) ∧
      ((∃ pr, t.get_next_leaf_proof H pw = .ok pr) ↔ t.m_leaf_count < t.m_max_leaves) ∧
      (t.get_next_leaf_proof H pw = .error "tree is full" ↔
        t.m_leaf_count = t.m_max_leaves) := by
  obtain ⟨h1, h2, h3, h4, h5, h6, h7, h8, h9, h10, hspine⟩ := builds_tree_inv hB
  have hle : t.m_leaf_count ≤ t.m_max_leaves := by omega
  rcases Nat.lt_or_ge t.m_leaf_count t.m_max_leaves with hlt | hge
  · obtain ⟨t', hok⟩ := push_back_ok_of_inv
      (⟨h1, h2, h3, h4, h5, h6, h7, h8, h9, h10, hspine⟩ : tree_inv H r l w ls t) x hlt
    obtain ⟨sibs, hpok, hplen, hpfold⟩ := @get_next_leaf_proof_of_inv Hash H pw r l w ls t
      ⟨h1, h2, h3, h4, h5, h6, h7, h8, h9, h10, hspine⟩ hlt
    refine ⟨⟨fun _ => hlt, fun _ => ⟨t', hok⟩⟩, ?_, ⟨fun _ => hlt, fun _ => ⟨_, hpok⟩⟩, ?_⟩
    · constructor
      · intro he
        rw [hok] at he
        exact Except.noConfusion he
      · intro heq
        omega
    · constructor
      · intro he
        rw [hpok] at he
        exact Except.noConfusion he
      · intro heq
        omega
  · have hpe : t.push_back H x = .error "too many leaves" := by
      rw [back_merkle_tree.push_back, if_pos hge]
    have hpr : t.get_next_leaf_proof H pw = .error "tree is full" := by
      rw [back_merkle_tree.get_next_leaf_proof, if_pos hge]
    refine ⟨?_, ?_, ?_, ?_⟩
    · constructor
      · rintro ⟨t', ht'⟩
        rw [hpe] at ht'
        exact Except.noConfusion ht'
      · intro h
        exact absurd h (by omega)
    · exact ⟨fun _ => by omega, fun _ => hpe⟩
    · constructor
      · rintro ⟨pr, hpr'⟩
        rw [hpr] at hpr'
        exact Except.noConfusion hpr'
      · intro h
        exact absurd h (by omega)
    · exact ⟨fun _ => by omega, fun _ => hpr⟩

theorem C4_witness :
    Builds (fun a b => 2 * a + 3 * b + 1) (0 : Nat) 2 0 0 []
        (back_merkle_tree.fresh 0 2 0 0) ∧
      ((∃ t', (back_merkle_tree.fresh 0 2 0 0 : back_merkle_tree Nat).push_back
          (fun a b => 2 * a + 3 * b + 1) 7 = .ok t') ↔
        (back_merkle_tree.fresh 0 2 0 0 : back_merkle_tree Nat).m_leaf_count <
          (back_merkle_tree.fresh 0 2 0 0 : back_merkle_tree Nat).m_max_leaves) :=
  have hB : Builds (fun a b => 2 * a + 3 * b + 1) (0 : Nat) 2 0 0 []
      (back_merkle_tree.fresh 0 2 0 0) :=
    Builds.nil (by decide) (by decide) (by decide)
  ⟨hB, (@C4_capacity_errors Nat (fun a b => 2 * a + 3 * b + 1) 5 0 2 0 0 []
    (back_merkle_tree.fresh 0 2 0 0) hB 7).1⟩

/-- C5: On every reachable tree that is not full, the proof returned by
`get_next_leaf_proof()` verifies, its target hash is the pristine leaf hash,
its target address is `leaf_count << log2_leaf_size`, and its root hash equals
the root that `get_root_hash()` returns on the same tree. -/
theorem C5_next_leaf_proof_soundness {H : Hash → Hash → Hash} {pw d0 : Hash} {r l w : Nat}
    {ls : List Hash} {t : back_merkle_tree Hash} (hB : Builds H d0 r l w ls t)
    (hlt : t.m_leaf_count < t.m_max_leaves) :
    ∃ pr, t.get_next_leaf_proof H pw = .ok pr ∧
      pr.verify H ∧
      pr.target_hash = doubleIter H pw (l - w) ∧
      pr.target_address = t.m_leaf_count <<< t.m_log2_leaf_size ∧
      t.get_root_hash H pw = .ok pr.root_hash := by
  obtain ⟨h1, h2, h3, h4, h5, h6, h7, h8, h9, h10, hspine⟩ := builds_tree_inv hB
  obtain ⟨sibs, hpok, hplen, hpfold⟩ := @get_next_leaf_proof_of_inv Hash H pw r l w ls t
    ⟨h1, h2, h3, h4, h5, h6, h7, h8, h9, h10, hspine⟩ hlt
  have hshift : (ls.length <<< l) >>> l = ls.length := by
    rw [Nat.shiftLeft_eq, Nat.shiftRight_eq_div_pow,
      Nat.mul_div_cancel _ (Nat.two_pow_pos l)]
  refine ⟨_, hpok, ⟨hplen, ?_⟩, rfl, ?_, ?_⟩
  · show fold_siblings H sibs ((ls.length <<< l) >>> l) (doubleIter H pw (l - w)) = _
    rw [hshift]
    exact hpfold
  · show ls.length <<< l = t.m_leaf_count <<< t.m_log2_leaf_size
    rw [h4, h2]
  · rw [get_root_hash_of_inv
      (⟨h1, h2, h3, h4, h5, h6, h7, h8, h9, h10, hspine⟩ : tree_inv H r l w ls t)]

theorem C5_witness :
    (Builds (fun a b => 2 * a + 3 * b + 1) (0 : Nat) 2 0 0 []
        (back_merkle_tree.fresh 0 2 0 0) ∧
      (back_merkle_tree.fresh 0 2 0 0 : back_merkle_tree Nat).m_leaf_count <
        (back_merkle_tree.fresh 0 2 0 0 : back_merkle_tree Nat).m_max_leaves) ∧
      ∃ pr, (back_merkle_tree.fresh 0 2 0 0 : back_merkle_tree Nat).get_next_leaf_proof
          (fun a b => 2 * a + 3 * b + 1) 5 = .ok pr ∧
        pr.verify (fun a b => 2 * a + 3 * b + 1) ∧
        pr.target_hash = doubleIter (fun a b => 2 * a + 3 * b + 1) 5 0 ∧
        pr.target_address =
          (back_merkle_tree.fresh 0 2 0 0 : back_merkle_tree Nat).m_leaf_count <<<
            (back_merkle_tree.fresh 0 2 0 0 : back_merkle_tree Nat).m_log2_leaf_size ∧
        (back_merkle_tree.fresh 0 2 0 0 : back_merkle_tree Nat).get_root_hash
            (fun a b => 2 * a + 3 * b + 1) 5 = .ok pr.root_hash :=
  have hB : Builds (fun a b => 2 * a + 3 * b + 1) (0 : Nat) 2 0 0 []
      (back_merkle_tree.fresh 0 2 0 0) :=
    Builds.nil (by decide) (by decide) (by decide)
  ⟨⟨hB, by decide⟩, C5_next_leaf_proof_soundness hB (by decide)⟩

/-- C6: `get_root_hash` is total on every reachable state: it returns a hash
(an `.ok` outcome), and since the model turns every out-of-bounds access to
the context vector or the pristine table into an `.error`, the `.ok` outcome
also certifies that every such access is in bounds. -/
theorem C6_get_root_hash_total {H : Hash → Hash → Hash} {pw d0 : Hash} {r l w : Nat}
    {ls : List Hash} {t : back_merkle_tree Hash} (hB : Builds H d0 r l w ls t) :
    ∃ h : Hash, t.get_root_hash H pw = .ok h :=
  ⟨_, get_root_hash_of_inv (builds_tree_inv hB)⟩

theorem C6_witness :
    Builds (fun a b => 2 * a + 3 * b + 1) (0 : Nat) 2 0 0 []
        (back_merkle_tree.fresh 0 2 0 0) ∧
      ∃ h : Nat, (back_merkle_tree.fresh 0 2 0 0 : back_merkle_tree Nat).get_root_hash
          (fun a b => 2 * a + 3 * b + 1) 5 = .ok h :=
  have hB : Builds (fun a b => 2 * a + 3 * b + 1) (0 : Nat) 2 0 0 []
      (back_merkle_tree.fresh 0 2 0 0) :=
    Builds.nil (by decide) (by decide) (by decide)
  ⟨hB, @C6_get_root_hash_total Nat (fun a b => 2 * a + 3 * b + 1) 5 0 2 0 0 []
    (back_merkle_tree.fresh 0 2 0 0) hB⟩

/-- C7 (code bug): the claim says `read_memory` dispatches to the derived
memory-read hook and leaves the machine state unchanged, but the header
forwards `read_memory` to `do_write_memory`.  Evaluating the code at a
conforming derived implementation (`demo_state_access`, whose write hook
increments the state and whose read hook leaves it unchanged): the interface
call returns the mutated state `1`, while the derived read hook at the same
input returns `0`. -/
theorem C7_read_memory_dispatch_bug :
    i_state_access.read_memory demo_state_access 0 () 0 0 0 = 1 ∧
      demo_state_access.do_read_memory 0 () 0 0 0 = 0 ∧
      i_state_access.read_memory demo_state_access 0 () 0 0 0 =
        demo_state_access.do_write_memory 0 () 0 0 0 ∧
      i_state_access.read_memory demo_state_access 0 () 0 0 0 ≠
        demo_state_access.do_read_memory 0 () 0 0 0 :=
  ⟨rfl, rfl, rfl, by decide⟩

/-- C8: Each of the six Lua verifier bindings raises a Lua error carrying the
last error message exactly when the underlying `cm_verify_*` call returns a
nonzero result, and pushes the number 1 exactly when it returns zero — no
failure is silently dropped. -/
theorem C8_lua_bindings_propagate_failures {AccessLog CmHash : Type}
    (api : cm_api AccessLog CmHash) (log : AccessLog) (root_hash target_hash : CmHash)
    (reason : Nat) (data : List Nat) (len : Nat) :
    ((machine_class_index_verify_step_uarch_log api log =
          .raise api.cm_get_last_error_message ↔
        api.cm_verify_step_uarch_log log true ≠ 0) ∧
      (machine_class_index_verify_step_uarch_log api log = .pushed 1 ↔
        api.cm_verify_step_uarch_log log true = 0)) ∧
    ((machine_class_index_verify_step_uarch_state_transition api root_hash log target_hash =
          .raise api.cm_get_last_error_message ↔
        api.cm_verify_step_uarch_state_transition root_hash log target_hash true ≠ 0) ∧
      (machine_class_index_verify_step_uarch_state_transition api root_hash log target_hash =
          .pushed 1 ↔
        api.cm_verify_step_uarch_state_transition root_hash log target_hash true = 0)) ∧
    ((machine_class_index_verify_reset_uarch_log api log =
          .raise api.cm_get_last_error_message ↔
        api.cm_verify_reset_uarch_log log true ≠ 0) ∧
      (machine_class_index_verify_reset_uarch_log api log = .pushed 1 ↔
        api.cm_verify_reset_uarch_log log true = 0)) ∧
    ((machine_class_index_verify_reset_uarch_state_transition api root_hash log target_hash =
          .raise api.cm_get_last_error_message ↔
        api.cm_verify_reset_uarch_state_transition root_hash log target_hash true ≠ 0) ∧
      (machine_class_index_verify_reset_uarch_state_transition api root_hash log target_hash =
          .pushed 1 ↔
        api.cm_verify_reset_uarch_state_transition root_hash log target_hash true = 0)) ∧
    ((machine_class_index_verify_send_cmio_response_log api reason data len log =
          .raise api.cm_get_last_error_message ↔
        api.cm_verify_send_cmio_response_log reason data len log true ≠ 0) ∧
      (machine_class_index_verify_send_cmio_response_log api reason data len log =
          .pushed 1 ↔
        api.cm_verify_send_cmio_response_log reason data len log true = 0)) ∧
    ((machine_class_index_verify_send_cmio_response_state_transition api reason data len
          root_hash log target_hash = .raise api.cm_get_last_error_message ↔
        api.cm_verify_send_cmio_response_state_transition reason data len root_hash log
          target_hash true ≠ 0) ∧
      (machine_class_index_verify_send_cmio_response_state_transition api reason data len
          root_hash log target_hash = .pushed 1 ↔
        api.cm_verify_send_cmio_response_state_transition reason data len root_hash log
          target_hash true = 0)) := by
  refine ⟨?_, ?_, ?_, ?_, ?_, ?_⟩ <;>
    constructor <;>
    · simp only [machine_class_index_verify_step_uarch_log,
        machine_class_index_verify_step_uarch_state_transition,
        machine_class_index_verify_reset_uarch_log,
        machine_class_index_verify_reset_uarch_state_transition,
        machine_class_index_verify_send_cmio_response_log,
        machine_class_index_verify_send_cmio_response_state_transition]
      split_ifs with h <;> simp [h] <;> omega

/-- C9: `push_back` on a full tree is atomic: for every tree state with
`leaf_count = max_leaves`, the call fails with the tree-full error, the state
observed after the call is the unchanged tree (the source throws before
writing any member), and hence the root before and after the failed call is
identical. -/
theorem C9_push_back_full_atomic (H : Hash → Hash → Hash) (pw : Hash)
    (t : back_merkle_tree Hash) (x : Hash)
    (hfull : t.m_leaf_count = t.m_max_leaves) :
    t.push_back H x = .error "too many leaves" ∧
      t.push_back_run H x = t ∧
      (t.push_back_run H x).get_root_hash H pw = t.get_root_hash H pw := by
  have he : t.push_back H x = .error "too many leaves" := by
    rw [back_merkle_tree.push_back, if_pos (by omega)]
  have hr : t.push_back_run H x = t := by
    rw [back_merkle_tree.push_back_run, he]
  exact ⟨he, hr, by rw [hr]⟩

theorem C9_witness :
    (⟨0, 0, 0, 1, 1, [9]⟩ : back_merkle_tree Nat).m_leaf_count =
        (⟨0, 0, 0, 1, 1, [9]⟩ : back_merkle_tree Nat).m_max_leaves ∧
      (⟨0, 0, 0, 1, 1, [9]⟩ : back_merkle_tree Nat).push_back
          (fun a b => 2 * a + 3 * b + 1) 7 = .error "too many leaves" ∧
      (⟨0, 0, 0, 1, 1, [9]⟩ : back_merkle_tree Nat).push_back_run
          (fun a b => 2 * a + 3 * b + 1) 7 = ⟨0, 0, 0, 1, 1, [9]⟩ :=
  have h := C9_push_back_full_atomic (fun a b => 2 * a + 3 * b + 1) 5
    (⟨0, 0, 0, 1, 1, [9]⟩ : back_merkle_tree Nat) 7 rfl
  ⟨rfl, h.1, h.2.1⟩

/-- C10: `get_next_leaf_proof` is observably pure: the method is `const` and
writes no member, so the state observed after a call is the receiver
unchanged, and on every reachable non-full state two successive calls return
proofs that agree in target address, target hash, siblings and root hash. -/
theorem C10_get_next_leaf_proof_pure {H : Hash → Hash → Hash} {pw d0 : Hash} {r l w : Nat}
    {ls : List Hash} {t : back_merkle_tree Hash} (hB : Builds H d0 r l w ls t)
    (hlt : t.m_leaf_count < t.m_max_leaves) :
    (t.get_next_leaf_proof_call H pw).2 = t ∧
      ∃ pr₁ pr₂,
        (t.get_next_leaf_proof_call H pw).1 = .ok pr₁ ∧
        (((t.get_next_leaf_proof_call H pw).2).get_next_leaf_proof_call H pw).1 = .ok pr₂ ∧
        pr₁.target_address = pr₂.target_address ∧
        pr₁.target_hash = pr₂.target_hash ∧
        pr₁.siblings = pr₂.siblings ∧
        pr₁.root_hash = pr₂.root_hash := by
  obtain ⟨h1, h2, h3, h4, h5, h6, h7, h8, h9, h10, hspine⟩ := builds_tree_inv hB
  obtain ⟨sibs, hpok, hplen, hpfold⟩ := @get_next_leaf_proof_of_inv Hash H pw r l w ls t
    ⟨h1, h2, h3, h4, h5, h6, h7, h8, h9, h10, hspine⟩ hlt
  exact ⟨rfl, _, _, hpok, hpok, rfl, rfl, rfl, rfl⟩

theorem C10_witness :
    (Builds (fun a b => 2 * a + 3 * b + 1) (0 : Nat) 2 0 0 []
        (back_merkle_tree.fresh 0 2 0 0) ∧
      (back_merkle_tree.fresh 0 2 0 0 : back_merkle_tree Nat).m_leaf_count <
        (back_merkle_tree.fresh 0 2 0 0 : back_merkle_tree Nat).m_max_leaves) ∧
      ((back_merkle_tree.fresh 0 2 0 0 : back_merkle_tree Nat).get_next_leaf_proof_call
          (fun a b => 2 * a + 3 * b + 1) 5).2 = back_merkle_tree.fresh 0 2 0 0 ∧
      ∃ pr₁ pr₂,
        ((back_merkle_tree.fresh 0 2 0 0 : back_merkle_tree Nat).get_next_leaf_proof_call
            (fun a b => 2 * a + 3 * b + 1) 5).1 = .ok pr₁ ∧
        ((((back_merkle_tree.fresh 0 2 0 0 : back_merkle_tree Nat).get_next_leaf_proof_call
              (fun a b => 2 * a + 3 * b + 1) 5).2).get_next_leaf_proof_call
            (fun a b => 2 * a + 3 * b + 1) 5).1 = .ok pr₂ ∧
        pr₁.target_address = pr₂.target_address ∧
        pr₁.target_hash = pr₂.target_hash ∧
        pr₁.siblings = pr₂.siblings ∧
        pr₁.root_hash = pr₂.root_hash :=
  have hB : Builds (fun a b => 2 * a + 3 * b + 1) (0 : Nat) 2 0 0 []
      (back_merkle_tree.fresh 0 2 0 0) :=
    Builds.nil (by decide) (by decide) (by decide)
  ⟨⟨hB, by decide⟩, C10_get_next_leaf_proof_pure hB (by decide)⟩

end Claims

end MachineEmulator
